import Mathlib

/-!
Shallow embedding of the RelayMux core of `mev-boost-rs`
(`src/mev-boost-rs/src/relay_mux.rs`), together with theorems settling the
specification claims about it.

Machine integers: `U256` bid values, 32-byte hashes and 48-byte BLS public
keys are modelled as `Nat` (the source only compares them for order /
equality and clones them, so no overflow arithmetic is involved).
The nondeterministic completion order of `buffer_unordered` is modelled by
taking the collected response vector as an explicit input, and the
`rand::shuffle` of the winner list by an explicit `shuffle` function
argument (a permutation in any real execution).
-/

namespace MevBoost

/-- Constant `PROPOSAL_TOLERANCE_DELAY` from `relay_mux.rs`. -/
def PROPOSAL_TOLERANCE_DELAY : Nat := 1

/-- One step of the fold inside `select_best_bids`: the accumulator is the
pair (`best_value`, `relay_indices`); the two `if`s of the source body. -/
def selStep (acc : Nat × List Nat) (p : Nat × Nat) : Nat × List Nat :=
  let acc := if p.1 > acc.1 then (p.1, []) else acc
  if p.1 = acc.1 then (acc.1, acc.2 ++ [p.2]) else acc

/-- Function `select_best_bids` from `relay_mux.rs`: fold over the `(value, index)`
pairs with `best_value` starting at `U256::zero()` and an empty index list. -/
def select_best_bids (bids : List (Nat × Nat)) : List Nat :=
  (bids.foldl selStep (0, [])).2

/-- The maximum bid value occurring in the list, `0` for the empty list. -/
def maxBidValue (l : List (Nat × Nat)) : Nat :=
  l.foldr (fun p m => max p.1 m) 0

/-- A relay of the mux: only its advertised BLS public key is relevant to the
embedded code paths. -/
structure Relay where
  public_key : Nat
  deriving DecidableEq, Repr

instance : Inhabited Relay := ⟨⟨0⟩⟩

/-- Projection `self.relays[i].public_key` — the source indexes with indices produced by
`enumerate`, which are always in bounds. -/
def relayPubkey (relays : List Relay) (i : Nat) : Nat :=
  (relays.getD i default).public_key

/-- Type `BidRequest` from `mev-rs` (the outstanding-bid key): slot, parent hash,
proposer public key. -/
structure BidRequest where
  slot : Nat
  parent_hash : Nat
  public_key : Nat
  deriving DecidableEq, Repr

/-- Type `SignedBuilderBid`, reduced to the accessors the mux uses: `value()`,
`public_key()`, `block_hash()`, and the outcome of
`bid.verify_signature(context)` (an opaque BLS check on the wire data,
modelled as a boolean field of the bid). -/
structure SignedBuilderBid where
  value : Nat
  public_key : Nat
  block_hash : Nat
  signature_valid : Bool
  deriving DecidableEq, Repr

/-- Type `SignedBlindedBeaconBlock`, reduced to the accessors the mux uses:
`slot()`, `parent_hash()`, `block_hash()`. -/
structure SignedBlindedBeaconBlock where
  slot : Nat
  parent_hash : Nat
  block_hash : Nat
  deriving DecidableEq, Repr

/-- Type `ExecutionPayload`, reduced to `block_hash()`. -/
structure ExecutionPayload where
  block_hash : Nat
  deriving DecidableEq, Repr

/-- The `Error` variants of `mev-rs` that the embedded code paths can
produce, plus `panicked`, which models a Rust panic (the out-of-bounds
`bids[...]` indexing in `fetch_best_bid` can abort the task). -/
inductive MuxError where
  | NoBids
  | CouldNotRegister
  | MissingOpenBid
  | MissingPayload (block_hash : Nat)
  | BidPublicKeyMismatch (bid : Nat) (relay : Nat)
  | InvalidSignature
  | panicked
  deriving DecidableEq, Repr

/-- Function `validate_bid` from `relay_mux.rs`: public-key equality first, then
signature verification. -/
def validate_bid (bid : SignedBuilderBid) (public_key : Nat) :
    Except MuxError Unit :=
  if bid.public_key ≠ public_key then
    .error (.BidPublicKeyMismatch bid.public_key public_key)
  else if bid.signature_valid then .ok () else .error .InvalidSignature

/-- The `HashMap<BidRequest, Vec<usize>>` of the mux state, modelled as an
association list whose operations never leave a duplicate key. -/
def lookupOB (k : BidRequest) : List (BidRequest × List Nat) → Option (List Nat)
  | [] => none
  | e :: rest => if e.1 = k then some e.2 else lookupOB k rest

/-- Operation `HashMap::remove`: drop the entry at `k` (a no-op when absent). -/
def removeOB (k : BidRequest) (m : List (BidRequest × List Nat)) :
    List (BidRequest × List Nat) :=
  m.filter (fun e => decide (e.1 ≠ k))

/-- Operation `HashMap::insert`: overwrite any prior entry at `k`. -/
def insertOB (k : BidRequest) (v : List Nat) (m : List (BidRequest × List Nat)) :
    List (BidRequest × List Nat) :=
  (k, v) :: removeOB k m

/-- Type `State` from `relay_mux.rs`: the outstanding-bid map and the proposer
public key of the latest successful `fetch_best_bid`. -/
structure State where
  outstanding_bids : List (BidRequest × List Nat)
  latest_pubkey : Nat
  deriving DecidableEq, Repr

/-- Value `State::default()`: empty map, `BlsPublicKey::default()`. -/
def State.initial : State := { outstanding_bids := [], latest_pubkey := 0 }

/-- Method `RelayMux::on_slot`: retain the entries with
`bid_request.slot + PROPOSAL_TOLERANCE_DELAY >= slot`. -/
def on_slot (slot : Nat) (s : State) : State :=
  { s with
    outstanding_bids :=
      s.outstanding_bids.filter
        (fun e => decide (e.1.slot + PROPOSAL_TOLERANCE_DELAY ≥ slot)) }

/-- Function `bid_key_from` from `relay_mux.rs`. -/
def bid_key_from (signed_block : SignedBlindedBeaconBlock) (public_key : Nat) :
    BidRequest :=
  { slot := signed_block.slot
    parent_hash := signed_block.parent_hash
    public_key := public_key }

/-- Outcome of one relay `register_validators` call (payload irrelevant). -/
inductive RegOutcome where
  | success
  | failure
  deriving DecidableEq, Repr

/-- Method `RelayMux::register_validators`, given the per-relay outcomes of the
fanned-out calls (one per relay): count the failures and compare with the
relay count. -/
def register_validators (relays : List Relay) (outcomes : List RegOutcome) :
    Except MuxError Unit :=
  let num_failures := (outcomes.filter (fun r => decide (r = .failure))).length
  if num_failures = relays.length then .error .CouldNotRegister else .ok ()

/-- Outcome of one relay `fetch_best_bid` call as classified by the source:
elapsed timeout, transport/HTTP error, or a returned bid. -/
inductive FetchOutcome where
  | timeout
  | httpError
  | bid (b : SignedBuilderBid)
  deriving DecidableEq, Repr

/-- The loop of `fetch_best_bid` that builds the `bids` vector from the
completion-ordered `(relay_index, response)` pairs: bids failing
`validate_bid` against the serving relay's advertised key are dropped. -/
def collectBids (relays : List Relay) (responses : List (Nat × FetchOutcome)) :
    List (SignedBuilderBid × Nat) :=
  responses.filterMap
    (fun p =>
      match p.2 with
      | .bid b =>
          match validate_bid b (relayPubkey relays p.1) with
          | .ok _ => some (b, p.1)
          | .error _ => none
      | _ => none)

/-- The loop over `rest` in `fetch_best_bid` building `relay_indices`:
`bids[*index]` is positional indexing of the `bids` vector by a relay
index, and panics when out of bounds. -/
def retainSameHash (bids : List (SignedBuilderBid × Nat)) (best_hash : Nat) :
    List Nat → Except MuxError (List Nat)
  | [] => .ok []
  | i :: rest =>
      match bids.get? i with
      | none => .error .panicked
      | some p =>
          match retainSameHash bids best_hash rest with
          | .ok l => .ok (if p.1.block_hash = best_hash then i :: l else l)
          | .error e => .error e

/-- Method `RelayMux::fetch_best_bid`, given the completion-ordered relay responses
and the permutation `shuffle` drawn for the winner list; returns the result
together with the state after the call. -/
def fetch_best_bid (relays : List Relay) (bid_request : BidRequest)
    (responses : List (Nat × FetchOutcome)) (shuffle : List Nat → List Nat)
    (s : State) : Except MuxError SignedBuilderBid × State :=
  let bids := collectBids relays responses
  let best_indices := select_best_bids (bids.map (fun p => (p.1.value, p.2)))
  if best_indices.isEmpty then (.error .NoBids, s)
  else
    match shuffle best_indices with
    | [] => (.error .panicked, s)
    | best_index :: rest =>
        match bids.get? best_index with
        | none => (.error .panicked, s)
        | some best_pair =>
            match retainSameHash bids best_pair.1.block_hash rest with
            | .error e => (.error e, s)
            | .ok kept =>
                let relay_indices := best_index :: kept
                let s' : State :=
                  { outstanding_bids :=
                      insertOB bid_request relay_indices s.outstanding_bids
                    latest_pubkey := bid_request.public_key }
                (.ok best_pair.1, s')

/-- The response loop of `open_bid`: return the first payload whose block
hash equals the expected one, else `MissingPayload(expected)`. -/
def openLoop (expected : Nat) :
    List (Except Unit ExecutionPayload) → Except MuxError ExecutionPayload
  | [] => .error (.MissingPayload expected)
  | .ok payload :: rest =>
      if payload.block_hash = expected then .ok payload
      else openLoop expected rest
  | .error _ :: rest => openLoop expected rest

/-- Method `RelayMux::open_bid`, given the completion-ordered responses of the
contacted relays: reconstruct the key, `remove` the entry (miss →
`MissingOpenBid`, state unchanged), then scan the responses. -/
def open_bid (signed_block : SignedBlindedBeaconBlock)
    (responses : List (Except Unit ExecutionPayload)) (s : State) :
    Except MuxError ExecutionPayload × State :=
  let key := bid_key_from signed_block s.latest_pubkey
  match lookupOB key s.outstanding_bids with
  | none => (.error .MissingOpenBid, s)
  | some _ =>
      let s' := { s with outstanding_bids := removeOB key s.outstanding_bids }
      (openLoop signed_block.block_hash responses, s')


theorem maxBidValue_nil : maxBidValue [] = 0 := rfl

theorem maxBidValue_cons (p : Nat × Nat) (l : List (Nat × Nat)) :
    maxBidValue (p :: l) = max p.1 (maxBidValue l) := rfl

/-- Characterisation of the fold underlying `select_best_bids`, for an
arbitrary starting accumulator. -/
theorem foldl_selStep_eq (l : List (Nat × Nat)) (b : Nat) (w : List Nat) :
    l.foldl selStep (b, w) =
      (max b (maxBidValue l),
        (if maxBidValue l ≤ b then w else []) ++
          (l.filter (fun p => decide (p.1 = max b (maxBidValue l)))).map Prod.snd) := by
  induction l generalizing b w with
  | nil =>
      simp [maxBidValue]
  | cons p t ih =>
      rw [List.foldl_cons, maxBidValue_cons]
      rcases Nat.lt_trichotomy b p.1 with hbp | hbp | hbp
      · -- p.1 > b : clear the list, set best to p.1, then push p.2
        have hstep : selStep (b, w) p = (p.1, [p.2]) := by
          simp [selStep, hbp]
        rw [hstep, ih]
        rcases Nat.le_total (maxBidValue t) p.1 with hMt | hMt'
        · have hV : max b (max p.1 (maxBidValue t)) = p.1 := by omega
          have hV2 : max p.1 (maxBidValue t) = p.1 := by omega
          have h3 : ¬ p.1 ≤ b := by omega
          rw [hV, hV2]
          simp [List.filter_cons, hMt, h3]
        · rcases Nat.lt_or_ge p.1 (maxBidValue t) with hMt | hMteq
          · have hV : max b (max p.1 (maxBidValue t)) = maxBidValue t := by omega
            have hV2 : max p.1 (maxBidValue t) = maxBidValue t := by omega
            have h2 : ¬ maxBidValue t ≤ p.1 := by omega
            have h3 : ¬ maxBidValue t ≤ b := by omega
            have h4 : ¬ p.1 = maxBidValue t := by omega
            rw [hV, hV2]
            simp [List.filter_cons, h2, h3, h4]
          · have hV : max b (max p.1 (maxBidValue t)) = p.1 := by omega
            have hV2 : max p.1 (maxBidValue t) = p.1 := by omega
            have hMt : maxBidValue t ≤ p.1 := by omega
            have h3 : ¬ p.1 ≤ b := by omega
            rw [hV, hV2]
            simp [List.filter_cons, hMt, h3]
      · -- p.1 = b : push p.2
        have hstep : selStep (b, w) p = (b, w ++ [p.2]) := by
          have h1 : ¬ p.1 > b := by omega
          have h2 : p.1 = b := hbp.symm
          simp [selStep, h1, h2]
        rw [hstep, ih]
        rcases Nat.le_total (maxBidValue t) b with hMt | hMt'
        · have hV : max b (max p.1 (maxBidValue t)) = b := by omega
          have hV2 : max p.1 (maxBidValue t) = b := by omega
          have hV3 : max b (maxBidValue t) = b := by omega
          have h2 : p.1 = b := hbp.symm
          rw [hV, hV2, hV3]
          simp [List.filter_cons, hMt, h2, List.append_assoc]
        · rcases Nat.lt_or_ge b (maxBidValue t) with hMt | hMteq
          · have hV : max b (max p.1 (maxBidValue t)) = maxBidValue t := by omega
            have hV2 : max p.1 (maxBidValue t) = maxBidValue t := by omega
            have hV3 : max b (maxBidValue t) = maxBidValue t := by omega
            have h3 : ¬ maxBidValue t ≤ b := by omega
            have h4 : ¬ p.1 = maxBidValue t := by omega
            rw [hV, hV2, hV3]
            simp [List.filter_cons, h3, h4]
          · have hV : max b (max p.1 (maxBidValue t)) = b := by omega
            have hV2 : max p.1 (maxBidValue t) = b := by omega
            have hV3 : max b (maxBidValue t) = b := by omega
            have hMt : maxBidValue t ≤ b := by omega
            have h2 : p.1 = b := hbp.symm
            rw [hV, hV2, hV3]
            simp [List.filter_cons, hMt, h2, List.append_assoc]
      · -- p.1 < b : skip
        have hstep : selStep (b, w) p = (b, w) := by
          have h1 : ¬ p.1 > b := by omega
          have h2 : ¬ p.1 = b := by omega
          simp [selStep, h1, h2]
        rw [hstep, ih]
        have hV : max b (max p.1 (maxBidValue t)) = max b (maxBidValue t) := by omega
        rw [hV]
        rcases Nat.le_total (maxBidValue t) b with hMt | hMt'
        · have h5 : max p.1 (maxBidValue t) ≤ b := by omega
          have h6 : ¬ p.1 = max b (maxBidValue t) := by omega
          have h7 : ¬ p.1 = b := by omega
          simp [List.filter_cons, hMt, h5, h6, h7]
        · rcases Nat.lt_or_ge b (maxBidValue t) with hMt | hMteq
          · have h5 : ¬ max p.1 (maxBidValue t) ≤ b := by omega
            have h5' : ¬ maxBidValue t ≤ b := by omega
            have h6 : ¬ p.1 = max b (maxBidValue t) := by omega
            simp [List.filter_cons, h5, h5', h6]
          · have hMt : maxBidValue t ≤ b := by omega
            have h5 : max p.1 (maxBidValue t) ≤ b := by omega
            have h6 : ¬ p.1 = max b (maxBidValue t) := by omega
            have h7 : ¬ p.1 = b := by omega
            simp [List.filter_cons, hMt, h5, h6, h7]

/-- Theorem: `select_best_bids` returns exactly the second components (indices) of the
pairs whose value equals the maximum value, in input order. -/
theorem select_best_bids_eq_filter (l : List (Nat × Nat)) :
    select_best_bids l =
      (l.filter (fun p => decide (p.1 = maxBidValue l))).map Prod.snd := by
  unfold select_best_bids
  rw [foldl_selStep_eq]
  simp

/-- The maximum value is attained by some element of a nonempty list. -/
theorem maxBidValue_attained (l : List (Nat × Nat)) (h : l ≠ []) :
    ∃ p ∈ l, p.1 = maxBidValue l := by
  induction l with
  | nil => exact absurd rfl h
  | cons p t ih =>
      rcases List.eq_nil_or_concat t with ht | _
      · subst ht
        exact ⟨p, List.mem_cons_self .., by simp [maxBidValue]⟩
      · rcases Nat.le_total (maxBidValue t) p.1 with hM | hM
        · refine ⟨p, List.mem_cons_self .., ?_⟩
          rw [maxBidValue_cons]
          omega
        · by_cases htnil : t = []
          · subst htnil
            exact ⟨p, List.mem_cons_self .., by simp [maxBidValue]⟩
          · obtain ⟨q, hq, hqv⟩ := ih htnil
            refine ⟨q, List.mem_cons_of_mem _ hq, ?_⟩
            rw [maxBidValue_cons, hqv]
            omega

/-- Output of `select_best_bids` is empty exactly when the input is empty. -/
theorem select_best_bids_empty_iff (l : List (Nat × Nat)) :
    select_best_bids l = [] ↔ l = [] := by
  constructor
  · intro h
    by_contra hne
    obtain ⟨p, hp, hpv⟩ := maxBidValue_attained l hne
    rw [select_best_bids_eq_filter] at h
    have : p ∈ l.filter (fun p => decide (p.1 = maxBidValue l)) := by
      rw [List.mem_filter]
      exact ⟨hp, by simpa using hpv⟩
    rw [List.map_eq_nil_iff] at h
    rw [h] at this
    exact absurd this (List.not_mem_nil p)
  · intro h
    subst h
    rfl

/-- A filter keeps every element exactly when its predicate holds on all. -/
theorem length_filter_eq_iff {α : Type} (p : α → Bool) (l : List α) :
    (l.filter p).length = l.length ↔ ∀ a ∈ l, p a := by
  induction l with
  | nil => simp
  | cons a t ih =>
      by_cases hp : p a
      · simp [List.filter_cons, hp, ih]
      · have hle := List.length_filter_le p t
        simp [List.filter_cons, hp]
        omega

/-- Lookup misses in a filtered map when the predicate rejects the key. -/
theorem lookupOB_filter_none (k : BidRequest)
    (p : BidRequest × List Nat → Bool) (m : List (BidRequest × List Nat))
    (h : ∀ e ∈ m, e.1 = k → p e = false) :
    lookupOB k (m.filter p) = none := by
  induction m with
  | nil => rfl
  | cons e t ih =>
      have ht : ∀ x ∈ t, x.1 = k → p x = false :=
        fun x hx => h x (List.mem_cons_of_mem _ hx)
      by_cases hp : p e
      · rw [List.filter_cons_of_pos hp]
        by_cases hek : e.1 = k
        · exact absurd (h e (List.mem_cons_self ..) hek) (by simp [hp])
        · simp only [lookupOB]
          rw [if_neg hek]
          exact ih ht
      · rw [List.filter_cons_of_neg (by simpa using hp)]
        exact ih ht

/-- Lookup is unchanged by a filter that keeps every entry at the key. -/
theorem lookupOB_filter_eq (k : BidRequest)
    (p : BidRequest × List Nat → Bool) (m : List (BidRequest × List Nat))
    (h : ∀ e ∈ m, e.1 = k → p e = true) :
    lookupOB k (m.filter p) = lookupOB k m := by
  induction m with
  | nil => rfl
  | cons e t ih =>
      have ht : ∀ x ∈ t, x.1 = k → p x = true :=
        fun x hx => h x (List.mem_cons_of_mem _ hx)
      by_cases hek : e.1 = k
      · rw [List.filter_cons_of_pos (h e (List.mem_cons_self ..) hek)]
        simp only [lookupOB]
        rw [if_pos hek, if_pos hek]
      · by_cases hp : p e
        · rw [List.filter_cons_of_pos hp]
          simp only [lookupOB]
          rw [if_neg hek, if_neg hek]
          exact ih ht
        · rw [List.filter_cons_of_neg (by simpa using hp)]
          simp only [lookupOB]
          rw [if_neg hek]
          exact ih ht

/-- Removing a key makes its lookup miss. -/
theorem lookupOB_removeOB_self (k : BidRequest)
    (m : List (BidRequest × List Nat)) :
    lookupOB k (removeOB k m) = none := by
  unfold removeOB
  exact lookupOB_filter_none k _ m (by intro e he hek; simp [hek])

/-- Removing an absent key is a no-op. -/
theorem removeOB_of_lookup_none (k : BidRequest)
    (m : List (BidRequest × List Nat)) (h : lookupOB k m = none) :
    removeOB k m = m := by
  induction m with
  | nil => rfl
  | cons e t ih =>
      simp only [lookupOB] at h
      by_cases hek : e.1 = k
      · rw [if_pos hek] at h
        exact absurd h (by simp)
      · rw [if_neg hek] at h
        unfold removeOB
        rw [List.filter_cons_of_pos (by simpa using hek)]
        rw [removeOB] at ih
        rw [ih h]

/-- An `ok` result of the `open_bid` response loop has the expected block
hash and is the first matching payload of the response sequence. -/
theorem openLoop_ok (expected : Nat)
    (rs : List (Except Unit ExecutionPayload)) (payload : ExecutionPayload)
    (h : openLoop expected rs = .ok payload) :
    payload.block_hash = expected ∧
      ∃ pre post, rs = pre ++ .ok payload :: post ∧
        ∀ r ∈ pre, ∀ q, r = .ok q → q.block_hash ≠ expected := by
  induction rs with
  | nil => simp [openLoop] at h
  | cons r rest ih =>
      match r with
      | .ok p =>
          rw [openLoop] at h
          by_cases hb : p.block_hash = expected
          · rw [if_pos hb] at h
            have hp : p = payload := by
              injection h
            subst hp
            exact ⟨hb, [], rest, rfl, by simp⟩
          · rw [if_neg hb] at h
            obtain ⟨h1, pre, post, heq, hpre⟩ := ih h
            refine ⟨h1, .ok p :: pre, post, by rw [heq]; rfl, ?_⟩
            intro r hr q hq
            rcases List.mem_cons.mp hr with hcase | hcase
            · subst hcase
              have : p = q := by injection hq
              subst this
              exact hb
            · exact hpre r hcase q hq
      | .error e =>
          rw [openLoop] at h
          obtain ⟨h1, pre, post, heq, hpre⟩ := ih h
          refine ⟨h1, .error e :: pre, post, by rw [heq]; rfl, ?_⟩
          intro r hr q hq
          rcases List.mem_cons.mp hr with hcase | hcase
          · subst hcase
            exact absurd hq (by simp)
          · exact hpre r hcase q hq

/-- When no response carries the expected block hash, the response loop of
`open_bid` ends in `MissingPayload(expected)`. -/
theorem openLoop_missing (expected : Nat)
    (rs : List (Except Unit ExecutionPayload))
    (h : ∀ r ∈ rs, ∀ q, r = .ok q → q.block_hash ≠ expected) :
    openLoop expected rs = .error (.MissingPayload expected) := by
  induction rs with
  | nil => rfl
  | cons r rest ih =>
      have ht : ∀ x ∈ rest, ∀ q, x = .ok q → q.block_hash ≠ expected :=
        fun x hx => h x (List.mem_cons_of_mem _ hx)
      match r with
      | .ok p =>
          rw [openLoop]
          have hb : p.block_hash ≠ expected :=
            h (.ok p) (List.mem_cons_self ..) p rfl
          rw [if_neg hb]
          exact ih ht
      | .error e =>
          rw [openLoop]
          exact ih ht

/-- The response loop of `open_bid` never produces `MissingOpenBid`. -/
theorem openLoop_ne_missingOpenBid (expected : Nat)
    (rs : List (Except Unit ExecutionPayload)) :
    openLoop expected rs ≠ .error .MissingOpenBid := by
  induction rs with
  | nil => simp [openLoop]
  | cons r rest ih =>
      match r with
      | .ok p =>
          rw [openLoop]
          by_cases hb : p.block_hash = expected
          · rw [if_pos hb]
            simp
          · rw [if_neg hb]
            exact ih
      | .error e =>
          rw [openLoop]
          exact ih

/-- A bid can pass `validate_bid` only with the matching public key. -/
theorem validate_bid_ok_pubkey (bid : SignedBuilderBid) (pk : Nat)
    (u : Unit) (h : validate_bid bid pk = .ok u) :
    bid.public_key = pk := by
  by_contra hne
  rw [validate_bid, if_pos hne] at h
  exact absurd h (by simp)

/-- Every bid retained by the collection loop of `fetch_best_bid` carries
the advertised public key of the relay that served it. -/
theorem collectBids_pubkey (relays : List Relay)
    (responses : List (Nat × FetchOutcome))
    (pr : SignedBuilderBid × Nat) (h : pr ∈ collectBids relays responses) :
    pr.1.public_key = relayPubkey relays pr.2 := by
  unfold collectBids at h
  obtain ⟨a, _, hfa⟩ := List.mem_filterMap.mp h
  obtain ⟨i, out⟩ := a
  cases out with
  | timeout => simp at hfa
  | httpError => simp at hfa
  | bid b =>
      cases hval : validate_bid b (relayPubkey relays i) with
      | ok u =>
          simp only [hval] at hfa
          have : (b, i) = pr := by simpa using hfa
          subst this
          exact validate_bid_ok_pubkey b _ u hval
      | error e =>
          simp only [hval] at hfa
          exact absurd hfa (by simp)

/-- When every response is a timeout, a transport error, or a bid rejected
by `validate_bid`, nothing is retained. -/
theorem collectBids_nil (relays : List Relay)
    (responses : List (Nat × FetchOutcome))
    (h : ∀ p ∈ responses, ∀ b, p.2 = .bid b →
      ∃ e, validate_bid b (relayPubkey relays p.1) = .error e) :
    collectBids relays responses = [] := by
  unfold collectBids
  induction responses with
  | nil => rfl
  | cons p t ih =>
      rw [List.filterMap_cons]
      obtain ⟨i, out⟩ := p
      have ht := ih fun q hq => h q (List.mem_cons_of_mem _ hq)
      cases out with
      | timeout => exact ht
      | httpError => exact ht
      | bid b =>
          obtain ⟨e, he⟩ := h (i, .bid b) (List.mem_cons_self ..) b rfl
          simp only [he]
          exact ht

/-- Inversion of a successful `fetch_best_bid`: the new state is the old one
with `latest_pubkey` set to the request's public key and the request mapped
to some relay-index list starting at the shuffled best index. -/
theorem fetch_best_bid_ok_inv (relays : List Relay) (req : BidRequest)
    (responses : List (Nat × FetchOutcome)) (shuffle : List Nat → List Nat)
    (s : State) (bid : SignedBuilderBid) (s' : State)
    (h : fetch_best_bid relays req responses shuffle s = (.ok bid, s')) :
    ∃ ri : List Nat,
      s' = { outstanding_bids := insertOB req ri s.outstanding_bids,
             latest_pubkey := req.public_key } := by
  simp only [fetch_best_bid] at h
  split at h
  · simp at h
  · split at h
    · simp at h
    · split at h
      · simp at h
      · split at h
        · simp at h
        · rw [Prod.mk.injEq] at h
          exact ⟨_, h.2.symm⟩

/-- Call `open_bid` leaves `latest_pubkey` unchanged. -/
theorem open_bid_latest_pubkey (blk : SignedBlindedBeaconBlock)
    (rs : List (Except Unit ExecutionPayload)) (s : State) :
    (open_bid blk rs s).2.latest_pubkey = s.latest_pubkey := by
  unfold open_bid
  cases hl : lookupOB (bid_key_from blk s.latest_pubkey) s.outstanding_bids with
  | none => simp [hl]
  | some v => simp [hl]

/-- The outstanding map after `open_bid` is the old one with the
reconstructed key removed, whatever the relay responses were. -/
theorem open_bid_outstanding (blk : SignedBlindedBeaconBlock)
    (rs : List (Except Unit ExecutionPayload)) (s : State) :
    (open_bid blk rs s).2.outstanding_bids =
      removeOB (bid_key_from blk s.latest_pubkey) s.outstanding_bids := by
  unfold open_bid
  cases hl : lookupOB (bid_key_from blk s.latest_pubkey) s.outstanding_bids with
  | none =>
      simp only [hl]
      exact (removeOB_of_lookup_none _ _ hl).symm
  | some v => simp [hl]

/-- On a missing key, `open_bid` fails with `MissingOpenBid`. -/
theorem open_bid_missing (blk : SignedBlindedBeaconBlock)
    (rs : List (Except Unit ExecutionPayload)) (s : State)
    (h : lookupOB (bid_key_from blk s.latest_pubkey) s.outstanding_bids = none) :
    (open_bid blk rs s).1 = .error .MissingOpenBid := by
  simp [open_bid, h]

/-- On a present key, the result of `open_bid` is the response scan. -/
theorem open_bid_found (blk : SignedBlindedBeaconBlock)
    (rs : List (Except Unit ExecutionPayload)) (s : State) (v : List Nat)
    (h : lookupOB (bid_key_from blk s.latest_pubkey) s.outstanding_bids = some v) :
    (open_bid blk rs s).1 = openLoop blk.block_hash rs := by
  simp [open_bid, h]

/-- C1: for every finite list of (value, index) pairs, `select_best_bids`
returns exactly the indices whose value equals the maximum value in the
list, in their order of first appearance; the output is empty iff the input
is empty; and the enumerated example evaluates to `[33, 44, 45]`. -/
theorem claim_C1 (l : List (Nat × Nat)) :
    select_best_bids l =
        (l.filter (fun p => decide (p.1 = maxBidValue l))).map Prod.snd ∧
      (select_best_bids l = [] ↔ l = []) ∧
      select_best_bids [(3, 33), (2, 22), (3, 44), (2, 22), (1, 11), (3, 45)] =
        [33, 44, 45] :=
  ⟨select_best_bids_eq_filter l, select_best_bids_empty_iff l, by decide⟩

/-- C2 counterexample: the claim says a sole bid of value 0 is not selected
(`select_best_bids [(0, 5)] = []`); the code pushes the index, because `0`
equals the zero-initialised `best_value` at the `value == best_value`
check, so the output is `[5]`, not `[]`. -/
theorem claim_C2_counterexample :
    select_best_bids [(0, 5)] = [5] ∧ select_best_bids [(0, 5)] ≠ [] := by
  decide

/-- C2 amended: for the singleton input list containing one bid of value 0,
`select_best_bids` returns the singleton list of that bid's index — the
zero-initialised `best_value` is not a sentinel excluding zero-value bids. -/
theorem claim_C2 (i : Nat) : select_best_bids [(0, i)] = [i] := rfl

/-- C3: when an outstanding entry exists for the reconstructed key,
`open_bid` returns `Ok(payload)` only for the first payload in the response
sequence whose block hash equals the signed blinded block's block hash, and
returns `MissingPayload(expected)` when every response is an error or has a
non-matching block hash. -/
theorem claim_C3 (s : State) (blk : SignedBlindedBeaconBlock)
    (rs : List (Except Unit ExecutionPayload))
    (hfound :
      lookupOB (bid_key_from blk s.latest_pubkey) s.outstanding_bids ≠ none) :
    (∀ payload, (open_bid blk rs s).1 = .ok payload →
        payload.block_hash = blk.block_hash ∧
          ∃ pre post, rs = pre ++ .ok payload :: post ∧
            ∀ r ∈ pre, ∀ q, r = .ok q → q.block_hash ≠ blk.block_hash) ∧
      ((∀ r ∈ rs, ∀ q, r = .ok q → q.block_hash ≠ blk.block_hash) →
        (open_bid blk rs s).1 = .error (.MissingPayload blk.block_hash)) := by
  obtain ⟨v, hv⟩ := Option.ne_none_iff_exists'.mp hfound
  have hfst := open_bid_found blk rs s v hv
  constructor
  · intro payload hok
    rw [hfst] at hok
    exact openLoop_ok _ rs payload hok
  · intro hnone
    rw [hfst]
    exact openLoop_missing _ rs hnone

/-- Witness for C3 at a concrete state and response sequence. -/
theorem claim_C3_witness :
    (⟨7⟩ : ExecutionPayload).block_hash =
        (⟨1, 2, 7⟩ : SignedBlindedBeaconBlock).block_hash ∧
      ∃ pre post,
        ([.error (), .ok ⟨5⟩, .ok ⟨7⟩] : List (Except Unit ExecutionPayload)) =
            pre ++ .ok ⟨7⟩ :: post ∧
          ∀ r ∈ pre, ∀ q, r = .ok q →
            q.block_hash ≠ (⟨1, 2, 7⟩ : SignedBlindedBeaconBlock).block_hash :=
  (claim_C3 ⟨[(⟨1, 2, 3⟩, [0])], 3⟩ ⟨1, 2, 7⟩ [.error (), .ok ⟨5⟩, .ok ⟨7⟩]
      (by decide)).1 ⟨7⟩ rfl

/-- C4: with one outcome per relay, `register_validators` returns `Ok` iff
at least one relay's call succeeded, and `CouldNotRegister` iff all relays
failed. -/
theorem claim_C4 (relays : List Relay) (outcomes : List RegOutcome)
    (h : outcomes.length = relays.length) :
    (register_validators relays outcomes = .ok () ↔
        ∃ o ∈ outcomes, o = RegOutcome.success) ∧
      (register_validators relays outcomes = .error .CouldNotRegister ↔
        ∀ o ∈ outcomes, o = RegOutcome.failure) := by
  constructor
  · constructor
    · intro hok
      by_contra hex
      push_neg at hex
      have hall : ∀ o ∈ outcomes, decide (o = RegOutcome.failure) = true := by
        intro o ho
        have hne := hex o ho
        cases o
        · exact absurd rfl hne
        · simp
      have hlen := (length_filter_eq_iff _ outcomes).mpr hall
      rw [register_validators] at hok
      rw [hlen, h, if_pos rfl] at hok
      exact absurd hok (by simp)
    · rintro ⟨o, ho, rfl⟩
      rw [register_validators]
      rw [if_neg ?_]
      intro heq
      have hall := (length_filter_eq_iff
        (fun r => decide (r = RegOutcome.failure)) outcomes).mp (heq.trans h.symm)
      have := hall _ ho
      simp at this
  · constructor
    · intro herr
      intro o ho
      by_cases hn :
          (outcomes.filter (fun r => decide (r = RegOutcome.failure))).length =
            relays.length
      · have hall := (length_filter_eq_iff
          (fun r => decide (r = RegOutcome.failure)) outcomes).mp (hn.trans h.symm)
        have := hall o ho
        simpa using this
      · rw [register_validators, if_neg hn] at herr
        exact absurd herr (by simp)
    · intro hall
      have hfil : ∀ o ∈ outcomes, decide (o = RegOutcome.failure) = true := by
        intro o ho
        simp [hall o ho]
      have hlen := (length_filter_eq_iff _ outcomes).mpr hfil
      rw [register_validators, hlen, h, if_pos rfl]

/-- Witness for C4: one success among two relays yields `Ok`. -/
theorem claim_C4_witness :
    register_validators [⟨1⟩, ⟨2⟩] [RegOutcome.success, RegOutcome.failure] =
      .ok () :=
  (claim_C4 [⟨1⟩, ⟨2⟩] [RegOutcome.success, RegOutcome.failure] rfl).1.mpr
    ⟨RegOutcome.success, by simp, rfl⟩

/-- C5: `on_slot(cur)` retains exactly the entries with `slot + 1 ≥ cur`
(`PROPOSAL_TOLERANCE_DELAY = 1`): an entry at slot `k.slot` survives
`on_slot (k.slot + 1)`, is gone after `on_slot t` for every
`t ≥ k.slot + 2`, and a subsequent `open_bid` whose block has that slot
fails with `MissingOpenBid` after `on_slot (k.slot + 2)`. -/
theorem claim_C5 (s : State) (k : BidRequest) (t : Nat) (ht : k.slot + 2 ≤ t)
    (blk : SignedBlindedBeaconBlock) (hblk : blk.slot = k.slot)
    (rs : List (Except Unit ExecutionPayload)) :
    (∀ cur, (on_slot cur s).outstanding_bids =
        s.outstanding_bids.filter (fun e => decide (e.1.slot + 1 ≥ cur))) ∧
      lookupOB k (on_slot (k.slot + 1) s).outstanding_bids =
        lookupOB k s.outstanding_bids ∧
      lookupOB k (on_slot t s).outstanding_bids = none ∧
      (open_bid blk rs (on_slot (k.slot + 2) s)).1 = .error .MissingOpenBid := by
  refine ⟨fun cur => rfl, ?_, ?_, ?_⟩
  · apply lookupOB_filter_eq
    intro e _ hek
    rw [hek]
    simp [PROPOSAL_TOLERANCE_DELAY]
  · apply lookupOB_filter_none
    intro e _ hek
    rw [hek]
    simp only [decide_eq_false_iff_not, PROPOSAL_TOLERANCE_DELAY]
    omega
  · apply open_bid_missing
    apply lookupOB_filter_none
    intro e _ hek
    rw [hek]
    simp only [bid_key_from, decide_eq_false_iff_not, PROPOSAL_TOLERANCE_DELAY]
    rw [hblk]
    omega

/-- Witness for C5 at a concrete state, key, slot tick and block. -/
theorem claim_C5_witness :
    lookupOB ⟨10, 1, 2⟩
        (on_slot 12 ⟨[(⟨10, 1, 2⟩, [0])], 0⟩).outstanding_bids = none ∧
      (open_bid ⟨10, 1, 99⟩ []
          (on_slot 12 ⟨[(⟨10, 1, 2⟩, [0])], 0⟩)).1 = .error .MissingOpenBid :=
  ⟨(claim_C5 ⟨[(⟨10, 1, 2⟩, [0])], 0⟩ ⟨10, 1, 2⟩ 12 (by decide) ⟨10, 1, 99⟩ rfl
      []).2.2.1,
    (claim_C5 ⟨[(⟨10, 1, 2⟩, [0])], 0⟩ ⟨10, 1, 2⟩ 12 (by decide) ⟨10, 1, 99⟩ rfl
      []).2.2.2⟩

/-- C6: a successful `fetch_best_bid` stores the bid request itself under
`latest_pubkey = req.public_key`; for any signed blinded block with the
request's slot and parent hash, `open_bid` reconstructs exactly that key,
finds the stored relay-index list (so does not fail with `MissingOpenBid`)
and removes it; and when no entry matches the reconstructed key, `open_bid`
returns `MissingOpenBid`. -/
theorem claim_C6 :
    (∀ (relays : List Relay) (req : BidRequest)
        (responses : List (Nat × FetchOutcome)) (shuffle : List Nat → List Nat)
        (s : State) (bid : SignedBuilderBid) (s' : State),
      fetch_best_bid relays req responses shuffle s = (.ok bid, s') →
        s'.latest_pubkey = req.public_key ∧
          ∀ blk : SignedBlindedBeaconBlock, blk.slot = req.slot →
            blk.parent_hash = req.parent_hash →
            bid_key_from blk s'.latest_pubkey = req ∧
              lookupOB (bid_key_from blk s'.latest_pubkey)
                  s'.outstanding_bids ≠ none ∧
                ∀ rs, (open_bid blk rs s').1 ≠ .error .MissingOpenBid ∧
                  lookupOB (bid_key_from blk s'.latest_pubkey)
                    (open_bid blk rs s').2.outstanding_bids = none) ∧
      ∀ (blk : SignedBlindedBeaconBlock)
          (rs : List (Except Unit ExecutionPayload)) (s : State),
        lookupOB (bid_key_from blk s.latest_pubkey) s.outstanding_bids = none →
          (open_bid blk rs s).1 = .error .MissingOpenBid := by
  constructor
  · intro relays req responses shuffle s bid s' hfetch
    obtain ⟨ri, hs'⟩ :=
      fetch_best_bid_ok_inv relays req responses shuffle s bid s' hfetch
    subst hs'
    refine ⟨rfl, ?_⟩
    intro blk h1 h2
    have hkey : bid_key_from blk req.public_key = req := by
      unfold bid_key_from
      rw [h1, h2]
    have hv :
        lookupOB (bid_key_from blk req.public_key)
          (insertOB req ri s.outstanding_bids) = some ri := by
      rw [hkey]
      simp [insertOB, lookupOB]
    refine ⟨hkey, ?_, ?_⟩
    · show lookupOB (bid_key_from blk req.public_key)
        (insertOB req ri s.outstanding_bids) ≠ none
      rw [hv]
      simp
    · intro rs
      constructor
      · have hfound := open_bid_found blk rs
          ⟨insertOB req ri s.outstanding_bids, req.public_key⟩ ri hv
        rw [hfound]
        exact openLoop_ne_missingOpenBid _ rs
      · show lookupOB (bid_key_from blk req.public_key)
          (open_bid blk rs
            ⟨insertOB req ri s.outstanding_bids, req.public_key⟩).2.outstanding_bids =
          none
        rw [open_bid_outstanding]
        exact lookupOB_removeOB_self _ _
  · intro blk rs s h
    exact open_bid_missing blk rs s h

/-- Witness for C6 at a concrete successful fetch and matching block. -/
theorem claim_C6_witness :
    bid_key_from ⟨1, 2, 9⟩
        ((⟨[(⟨1, 2, 3⟩, [0])], 3⟩ : State).latest_pubkey) = ⟨1, 2, 3⟩ :=
  ((claim_C6.1 [⟨10⟩] ⟨1, 2, 3⟩ [(0, FetchOutcome.bid ⟨5, 10, 7, true⟩)] id
      State.initial ⟨5, 10, 7, true⟩ ⟨[(⟨1, 2, 3⟩, [0])], 3⟩ rfl).2
    ⟨1, 2, 9⟩ rfl rfl).1

/-- C7 is a code bug: on the completion-ordered responses
`[(2, bid hash 100), (0, bid hash 100), (1, bid hash 200)]` of three relays
with equal values, `fetch_best_bid` indexes the completion-ordered `bids`
vector with the relay index 2, so it compares against (and returns) relay
1's bid and stores `[2]` although relay 0's bid shares the best relay's
block hash (the claim requires `[2, 0]`); with two relays of which only
relay 1 answers, the same indexing is out of bounds and the call panics. -/
theorem claim_C7_bug :
    fetch_best_bid [⟨10⟩, ⟨11⟩, ⟨12⟩] ⟨1, 2, 3⟩
        [(2, .bid ⟨5, 12, 100, true⟩), (0, .bid ⟨5, 10, 100, true⟩),
          (1, .bid ⟨5, 11, 200, true⟩)] id State.initial =
      (.ok ⟨5, 11, 200, true⟩, ⟨[(⟨1, 2, 3⟩, [2])], 3⟩) ∧
      (⟨5, 11, 200, true⟩ : SignedBuilderBid).public_key ≠
        relayPubkey [⟨10⟩, ⟨11⟩, ⟨12⟩] 2 ∧
      (⟨5, 12, 100, true⟩ : SignedBuilderBid).block_hash =
        (⟨5, 10, 100, true⟩ : SignedBuilderBid).block_hash ∧
      fetch_best_bid [⟨10⟩, ⟨11⟩] ⟨1, 2, 3⟩ [(1, .bid ⟨5, 11, 100, true⟩)] id
        State.initial = (.error .panicked, State.initial) :=
  ⟨rfl, by decide, rfl, rfl⟩

/-- C8: when every relay outcome is a timeout, a transport/HTTP error, or a
bid rejected by `validate_bid`, `fetch_best_bid` returns `NoBids` and the
state is unchanged. -/
theorem claim_C8 (relays : List Relay) (req : BidRequest)
    (responses : List (Nat × FetchOutcome)) (shuffle : List Nat → List Nat)
    (s : State)
    (h : ∀ p ∈ responses, ∀ b, p.2 = .bid b →
        ∃ e, validate_bid b (relayPubkey relays p.1) = .error e) :
    fetch_best_bid relays req responses shuffle s = (.error .NoBids, s) := by
  have hnil := collectBids_nil relays responses h
  simp only [fetch_best_bid, hnil]
  rfl

/-- Witness for C8: a timeout, a transport error and a wrong-pubkey bid. -/
theorem claim_C8_witness :
    fetch_best_bid [⟨10⟩] ⟨1, 2, 3⟩
        [(0, .timeout), (0, .httpError), (0, .bid ⟨5, 99, 7, true⟩)] id
        State.initial = (.error .NoBids, State.initial) :=
  claim_C8 [⟨10⟩] ⟨1, 2, 3⟩
    [(0, .timeout), (0, .httpError), (0, .bid ⟨5, 99, 7, true⟩)] id
    State.initial
    (by
      intro p hp b hb
      rcases List.mem_cons.mp hp with h0 | hp
      · subst h0
        exact absurd hb (by simp)
      rcases List.mem_cons.mp hp with h0 | hp
      · subst h0
        exact absurd hb (by simp)
      rcases List.mem_cons.mp hp with h0 | hp
      · subst h0
        have hbb : (⟨5, 99, 7, true⟩ : SignedBuilderBid) = b := by
          injection hb
        subst hbb
        exact ⟨.BidPublicKeyMismatch 99 10, rfl⟩
      · exact absurd hp (List.not_mem_nil p))

/-- C9: `validate_bid` fails with `BidPublicKeyMismatch` carrying the bid's
key and the relay's key whenever the keys differ — for every bid, in
particular whatever its signature validity, so no signature verification is
involved — and every bid retained by `fetch_best_bid`'s collection loop
carries the serving relay's advertised key. -/
theorem claim_C9 :
    (∀ (bid : SignedBuilderBid) (pk : Nat), bid.public_key ≠ pk →
        validate_bid bid pk = .error (.BidPublicKeyMismatch bid.public_key pk)) ∧
      ∀ (relays : List Relay) (responses : List (Nat × FetchOutcome))
        (pr : SignedBuilderBid × Nat), pr ∈ collectBids relays responses →
          pr.1.public_key = relayPubkey relays pr.2 := by
  constructor
  · intro bid pk h
    rw [validate_bid, if_pos h]
  · exact collectBids_pubkey

/-- Witness for C9: a mismatched bid with an invalid signature is rejected
with `BidPublicKeyMismatch`, and a retained bid carries the relay's key. -/
theorem claim_C9_witness :
    validate_bid ⟨1, 5, 9, false⟩ 6 = .error (.BidPublicKeyMismatch 5 6) ∧
      ((⟨5, 10, 7, true⟩, 0) : SignedBuilderBid × Nat).1.public_key =
        relayPubkey [⟨10⟩] 0 :=
  ⟨claim_C9.1 ⟨1, 5, 9, false⟩ 6 (by decide),
    claim_C9.2 [⟨10⟩] [(0, FetchOutcome.bid ⟨5, 10, 7, true⟩)]
      (⟨5, 10, 7, true⟩, 0) (by decide)⟩

/-- C10: `open_bid` consumes the outstanding entry whatever the relay
responses are (so also when it then fails with `MissingPayload`),
`latest_pubkey` is untouched, and a repeated `open_bid` for the same signed
blinded block returns `MissingOpenBid`. -/
theorem claim_C10 (s : State) (blk : SignedBlindedBeaconBlock)
    (rs rs' : List (Except Unit ExecutionPayload)) :
    (open_bid blk rs s).2.outstanding_bids =
        removeOB (bid_key_from blk s.latest_pubkey) s.outstanding_bids ∧
      (open_bid blk rs s).2.latest_pubkey = s.latest_pubkey ∧
      (open_bid blk rs' (open_bid blk rs s).2).1 = .error .MissingOpenBid := by
  refine ⟨open_bid_outstanding blk rs s, open_bid_latest_pubkey blk rs s, ?_⟩
  apply open_bid_missing
  rw [open_bid_latest_pubkey, open_bid_outstanding]
  exact lookupOB_removeOB_self _ _

end MevBoost
